import Mathlib

/-!
Verification development for the git keyword-substitution commit-hook pair
(`git_pre_commit_hook.py`, `git_post_commit_hook.py`, `git_utilities.py`,
`secrets_manager.py`).

File contents are modelled as lists of characters (the files are read with a
single-byte-tolerant or utf-8 text codec; byte-level questions reduce to
character-level ones here).  Python's text-mode reading uses universal
newlines: `\r\n` and a lone `\r` are translated to `\n` before the program
sees a line; this translation is embedded explicitly (`normNL`), because the
hook reads files in text mode and writes the resulting rows back in binary
mode.

The MD5 digest itself is not modelled: `crcOf` returns the exact character
stream fed to `hashlib.md5`.  Two files get the same hexdigest whenever the
fed streams are equal, so every equality of `crcOf` values transfers to an
equality of the real checksums.

The database-backed revision ledger is modelled as a finite map from
(repository, branch) to the current revision counter, with the
increment-and-fetch statement pair of `get_new_repository_revision` embedded
as `incrFetch`.  Paths given to the orchestrator are taken to be the absolute
path strings that `Path(item).absolute()` produces.
-/

namespace GKS

/-- File contents, lines and path names as lists of characters. -/
abbrev Str := List Char

/-- Coerce a Lean string literal to the character-list representation. -/
def str (s : String) : Str := s.data

/-- Association-list lookup (models a Python dict read). -/
def lookupA {κ ν : Type} [DecidableEq κ] : List (κ × ν) → κ → Option ν
  | [], _ => none
  | (k, v) :: t, key => if k = key then some v else lookupA t key

/-- Association-list update (models a Python dict write; keeps key order). -/
def assocSet {κ ν : Type} [DecidableEq κ] : List (κ × ν) → κ → ν → List (κ × ν)
  | [], key, v => [(key, v)]
  | (k, w) :: t, key, v =>
      if k = key then (key, v) :: t else (k, w) :: assocSet t key v

/-- `startswith r p` embeds Python's `r.startswith(p)`. -/
def startswith : Str → Str → Bool
  | _, [] => true
  | [], _ :: _ => false
  | c :: s, p :: ps => c = p && startswith s ps

/-- Universal-newline translation applied by Python's text-mode reading:
`\r\n` and a lone `\r` both become `\n`. -/
def normNL : Str → Str
  | [] => []
  | c :: z =>
    if c = '\r' then
      match z with
      | [] => ['\n']
      | '\n' :: z2 => '\n' :: normNL z2
      | c2 :: z2 => '\n' :: normNL (c2 :: z2)
    else c :: normNL z

/-- Split an (already newline-normalised) character stream into lines, each
keeping its trailing `\n`; the last line may lack one.  This is how Python
iterates a text-mode file handle. -/
def splitLines : Str → List Str
  | [] => []
  | c :: z =>
    if c = '\n' then ['\n'] :: splitLines z
    else
      match splitLines z with
      | [] => [[c]]
      | l :: ls => (c :: l) :: ls

/-- The lines a text-mode read of the raw content yields. -/
def univLines (c : Str) : List Str := splitLines (normNL c)

/-- The first line a text-mode `readline()` on the raw content yields
(empty for an empty file). -/
def firstLine (c : Str) : Str := (univLines c).headD []

/-- Python's `str.lower()` restricted to the characters that occur in
repository directory names. -/
def strLower (s : Str) : Str := s.map Char.toLower

/-- Decimal rendering of an integer, as Python's format interpolation does. -/
def natStr (n : Nat) : Str := (Nat.repr n).data

/-! ### Eligible extensions and header markers

`PATCHABLE_EXT_PREFIXES` from `git_pre_commit_hook.py` lines 36-38. -/

/-- The recognised extensions and the literal marker string opening/closing
each header block. -/
def extMarkers : List (Str × Str) :=
  [(str (".conf"), str ("#---")), (str (".env"), str ("#---")),
   (str (".ini"), str ("#---")), (str (".py"), str ("\"\"\"\n")),
   (str (".toml"), str ("#---")), (str (".yaml"), str ("#---"))]

/-- The part of a path after the last `/` (Python `Path.name`). -/
def basenameOf (p : Str) : Str :=
  p.foldl (fun acc c => if c = '/' then [] else acc ++ [c]) []

/-- Index of the last `.` in a name, if any (Python `str.rfind`). -/
def rfindDot : Str → Option Nat
  | [] => none
  | c :: z =>
    match rfindDot z with
    | some i => some (i + 1)
    | none => if c = '.' then some 0 else none

/-- Python `Path.suffix`: the extension of the final component; empty for
dot-prefixed names such as `.env` and for names without an inner dot. -/
def extOf (p : Str) : Str :=
  let b := basenameOf p
  match rfindDot b with
  | none => []
  | some i => if 0 < i ∧ i + 1 < b.length then b.drop i else []

/-- `GitPreCommitHook.current_infile_ext` (lines 134-141): the suffix, or the
full file name when the suffix is empty. -/
def currentInfileExt (p : Str) : Str :=
  let e := extOf p
  if e = [] then basenameOf p else e

/-- `GitPreCommitHook.patchable_file` (lines 145-152). -/
def patchable (p : Str) : Bool :=
  (lookupA extMarkers (currentInfileExt p)).isSome

/-- The header marker for a candidate file (`PATCHABLE_EXT_PREFIXES[ext]`). -/
def markerOf (p : Str) : Str :=
  (lookupA extMarkers (currentInfileExt p)).getD []

/-! ### The four keyword substitutions

`RE_KEYS` (line 34) and the four `re.sub` calls of `update_header_block`
(lines 277-280).  Each pattern is `( +?<tag>)(.+)` replaced by `\1 <value>`:
at the leftmost position where one or more spaces are immediately followed by
the literal tag and at least one further non-newline character, everything
after the tag up to the line's newline is replaced by a single space and the
value.  Rows are single lines (any `\n` is terminal), so at most one
substitution fires per row. -/

/-- Length of the leading run of spaces. -/
def spacesRun : Str → Nat
  | [] => 0
  | c :: z => if c = ' ' then spacesRun z + 1 else 0

/-- `(.+)` after the tag must match: at least one character follows the tag
and it is not a newline. -/
def afterTagOk (tag m : Str) : Bool :=
  match m.drop tag.length with
  | [] => false
  | c :: _ => c != '\n'

/-- Whether the pattern ` +?<tag>(.+)` matches at the start of `l`; returns
the number of matched spaces. -/
def tryMatch (tag l : Str) : Option Nat :=
  if 1 ≤ spacesRun l ∧ startswith (l.drop (spacesRun l)) tag = true ∧
      afterTagOk tag (l.drop (spacesRun l)) = true
  then some (spacesRun l) else none

/-- One `re.sub(fr"( +?{tag})(.+)", fr"\1 {value}", row)` on a single row. -/
def substTag (tag value : Str) : Str → Str
  | [] => []
  | c :: rest =>
    match tryMatch tag (c :: rest) with
    | some k =>
        (c :: rest).take (k + tag.length) ++ ' ' :: value
          ++ ((c :: rest).drop (k + tag.length)).dropWhile (fun ch => ch ≠ '\n')
    | none => c :: substTag tag value rest

def tagRepo : Str := str ("$Repo:")
def tagAuthor : Str := str ("$Author:")
def tagDate : Str := str ("$Date:")
def tagRev : Str := str ("$Rev:")

/-- The four substitutions in the order the source applies them:
Author, Rev, Date, Repo (lines 277-280). -/
def substAllTags (user rev date repo : Str) (row : Str) : Str :=
  substTag tagRepo repo
    (substTag tagDate date
      (substTag tagRev rev
        (substTag tagAuthor user row)))

/-! ### The checksum `crc_of` (lines 156-189)

The source iterates `enumerate(hdl.readline(), 1)`: `readline()` returns the
first line of the file, and enumerating a string yields its characters, so
`row` ranges over the characters of the first line.  The embedding keeps the
tri-state `header_active` (`None`/`True`/`False`) and the `header_start`
variable exactly as written; `crcOf` returns the full character stream fed to
`hashlib.md5.update`. -/

structure CrcSt where
  headerActive : Option Bool
  headerStart : Bool
  hashed : Str
deriving DecidableEq

/-- One iteration of the `crc_of` loop body, processing a single character
`row` of the first line. -/
def crcStep (marker : Str) (st : CrcSt) (c : Char) : CrcSt :=
  let st1 :=
    if st.headerActive ≠ some true then
      { st with hashed := st.hashed ++ [c], headerStart := startswith [c] marker }
    else st
  if st1.headerActive = none ∧ st1.headerStart = true then
    { st1 with headerActive := some true }
  else if st1.headerActive = some true ∧ st1.headerStart = true then
    { st1 with headerActive := some false }
  else st1

/-- The character stream `crc_of` feeds to MD5 for a file with contents
`content` and marker `marker`.  Equal streams give equal checksums. -/
def crcOf (marker : Str) (content : Str) : Str :=
  ((firstLine content).foldl (crcStep marker) ⟨none, false, []⟩).hashed

/-! ### The rewrite loop of `update_header_block` (lines 268-288)

The backup file is read in text mode (universal newlines) and each row is
written back as utf-8 bytes.  Inside the header block the four substitutions
are applied first; the marker test is then made on the (possibly substituted)
row. -/

/-- The row-processing loop: returns the written rows and the final value of
the `header_active` toggle. -/
def rewriteRows (marker user rev date repo : Str) :
    Option Bool → List Str → List Str × Option Bool
  | ha, [] => ([], ha)
  | ha, row :: rest =>
    let row2 := if ha = some true then substAllTags user rev date repo row else row
    let ha2 :=
      if ha = none ∧ startswith row2 marker = true then some true
      else if ha = some true ∧ startswith row2 marker = true then some false
      else ha
    let out := rewriteRows marker user rev date repo ha2 rest
    (row2 :: out.1, out.2)

/-- The full byte content `update_header_block` writes for input `content`. -/
def rewriteContent (marker user rev date repo : Str) (content : Str) : Str :=
  ((rewriteRows marker user rev date repo none (univLines content)).1).flatten

/-! ### Commit handoff state, ledger, and the orchestrator `run`
(lines 295-355), plus instrumentation

`Ghost` records, per invocation: how many times the ledger's
increment-and-fetch ran, the revision value written at each file rewrite, the
rewritten paths, and whether the handoff file was written. -/

/-- The handoff record persisted in `.pre-commit-repo.json` (`commit_data`). -/
structure CommitData where
  user : Str
  files : List (Str × Str)
  repo : Str
  rev : Nat
  branch : Str
  date : Str
deriving DecidableEq

/-- The values the source-control query facility and the clock supply to one
logical commit: `get_git_username()`, `get_git_branch()`, the repository root
directory name, and `datetime.now().isoformat(...)`. -/
structure Env where
  user : Str
  branch : Str
  rootName : Str
  now : Str

/-- The revision ledger: current revision per (repository, branch). -/
abbrev Ledger := List ((Str × Str) × Nat)

/-- `get_new_repository_revision` (lines 193-230): `INSERT ... ON DUPLICATE
KEY UPDATE revision=revision+1` followed by `SELECT revision`.  A fresh row
starts at the column default 1; an existing row is incremented. -/
def incrFetch (led : Ledger) (key : Str × Str) : Nat × Ledger :=
  match lookupA led key with
  | none => (1, assocSet led key 1)
  | some r => (r + 1, assocSet led key (r + 1))

/-- Per-invocation instrumentation (not part of the program state). -/
structure Ghost where
  calls : Nat
  revs : List Nat
  rewrites : List Str
  wrote : Bool
deriving DecidableEq

/-- The in-memory state threaded through one invocation's file loop. -/
structure RunSt where
  data : CommitData
  fs : List (Str × Str)
  ledger : Ledger
  modified : Bool
  g : Ghost
deriving DecidableEq

/-- The on-disk state an invocation starts from and leaves behind. -/
structure St where
  fs : List (Str × Str)
  handoff : Option CommitData
  ledger : Ledger
deriving DecidableEq

/-- Where a process writes a diagnostic line. -/
inductive OutStream
  | stdout
  | stderr
deriving DecidableEq

/-- A reported failure: the stream carrying the diagnostic, the diagnostic
text, and whether the exception was re-raised afterwards. -/
structure Diag where
  stream : OutStream
  text : Str
  reraised : Bool
deriving DecidableEq

/-- `except BaseException as why: print(f'ERROR: {why}'); raise`
(lines 353-355).  `print` without a `file=` argument writes to stdout. -/
def mkDiag (e : Str) : Diag :=
  ⟨OutStream.stdout, str ("ERROR: ") ++ e, true⟩

/-- Result of one pre-commit invocation. -/
structure RunResult where
  err : Option Diag
  st : St
  g : Ghost
deriving DecidableEq

/-- Fresh handoff record built on the first invocation of a commit
(lines 328-332); the repository name is lower-cased. -/
def freshCommitData (env : Env) : CommitData :=
  ⟨env.user, [], strLower env.rootName, 0, env.branch, env.now⟩

/-- Load the handoff record if the file exists, else create one
(lines 327-339). -/
def loadOrCreate (env : Env) (handoff : Option CommitData) : CommitData :=
  match handoff with
  | none => freshCommitData env
  | some d => d

/-- `update_header_block` (lines 234-291): allocate the commit revision on
first need, record the checksum, mark the run modified, rewrite the file. -/
def updateHeaderBlock (p crc content : Str) (rs : RunSt) : RunSt :=
  let alloc :=
    if rs.data.rev = 0 then
      let rl := incrFetch rs.ledger (rs.data.repo, rs.data.branch)
      ({ rs.data with rev := rl.1 }, rl.2, { rs.g with calls := rs.g.calls + 1 })
    else (rs.data, rs.ledger, rs.g)
  let d2 := { alloc.1 with files := assocSet alloc.1.files p crc }
  let newContent :=
    rewriteContent (markerOf p) d2.user (natStr d2.rev) d2.date d2.repo content
  { data := d2, fs := assocSet rs.fs p newContent, ledger := alloc.2.1,
    modified := true,
    g := { alloc.2.2 with
             revs := alloc.2.2.revs ++ [d2.rev],
             rewrites := alloc.2.2.rewrites ++ [p] } }

/-- `process_file` (lines 295-310): skip empty files, recompute the checksum,
rewrite when it differs from the recorded one.  A missing file is the
modelled I/O failure (`getsize`/`open` raise). -/
def processFile (p : Str) (rs : RunSt) : Except Str RunSt :=
  match lookupA rs.fs p with
  | none => .error p
  | some content =>
    if content = [] then .ok rs
    else
      let crc := crcOf (markerOf p) content
      if lookupA rs.data.files p = some crc then .ok rs
      else .ok (updateHeaderBlock p crc content rs)

/-- The file loop of `run` (lines 341-345), threading the state that the
invocation has already committed to disk when a failure interrupts it. -/
def processLoop : List Str → RunSt → Option Str × RunSt
  | [], rs => (none, rs)
  | p :: ps, rs =>
    if patchable p then
      match processFile p rs with
      | .error e => (some e, rs)
      | .ok rs1 => processLoop ps rs1
    else processLoop ps rs

/-- One pre-commit invocation (`GitPreCommitHook.run`, lines 314-355): load or
create the handoff record, process every given file, and persist the record
only if some file was modified; any failure is reported and re-raised, and
the handoff write at the end is never reached. -/
def runHook (env : Env) (files : List Str) (s : St) : RunResult :=
  let d := loadOrCreate env s.handoff
  let rs0 : RunSt := ⟨d, s.fs, s.ledger, false, ⟨0, [], [], false⟩⟩
  match processLoop files rs0 with
  | (some e, rs) => ⟨some (mkDiag e), ⟨rs.fs, s.handoff, rs.ledger⟩, rs.g⟩
  | (none, rs) =>
    if rs.modified then
      ⟨none, ⟨rs.fs, some rs.data, rs.ledger⟩, { rs.g with wrote := true }⟩
    else ⟨none, ⟨rs.fs, s.handoff, rs.ledger⟩, rs.g⟩

/-- The in-memory state a fresh invocation starts its file loop from
(the constructor plus the load-or-create step of `run`). -/
def initRS (env : Env) (s : St) : RunSt :=
  ⟨loadOrCreate env s.handoff, s.fs, s.ledger, false, ⟨0, [], [], false⟩⟩

/-! ### Post-commit finalizer (`git_post_commit_hook.py`) -/

/-- The row data `compile_commit_data` passes to both SQL statements of
`update_repository_tables`. -/
structure RepoRow where
  rev : Nat
  hash : Str
  branch : Str
  name : Str
  created : Str
deriving DecidableEq

/-- `compile_commit_data` (lines 67-81): the ledger key name is
`repo_file.parent.name`, i.e. the repository root directory name verbatim,
since `repo_file` is `<root>/.pre-commit-repo.json`. -/
def compileCommitData (rootDirName : Str) (d : CommitData) (commitHash : Str) :
    RepoRow :=
  ⟨d.rev, commitHash, d.branch, rootDirName, d.date⟩

/-! ### Specification predicates used by the theorems -/

/-- At path `p`, the recorded checksum (if the file is a non-empty candidate)
matches the checksum of the on-disk content. -/
def ConsistentAt (fsm files : List (Str × Str)) (p : Str) : Prop :=
  patchable p = true →
    ∃ content, lookupA fsm p = some content ∧
      (content ≠ [] → lookupA files p = some (crcOf (markerOf p) content))

/-- Invariant of the file loop, relative to the revision `r0` the invocation
started from: the ledger is called at most once, only while the revision is
still the 0 sentinel, every rewrite records the current positive revision,
an already-allocated revision is never re-allocated, and the modified flag
tracks exactly whether some rewrite happened. -/
structure RunInv (r0 : Nat) (rs : RunSt) : Prop where
  calls_le : rs.g.calls ≤ 1
  rev_zero : rs.data.rev = 0 → rs.g.calls = 0 ∧ rs.g.revs = []
  revs_eq : ∀ v ∈ rs.g.revs, v = rs.data.rev ∧ 0 < v
  stable : 0 < r0 → rs.data.rev = r0 ∧ rs.g.calls = 0
  mod_iff : rs.modified = true ↔ rs.g.rewrites ≠ []
  len_eq : rs.g.revs.length = rs.g.rewrites.length
  wrote_false : rs.g.wrote = false

/-! ### Concrete fixtures used by witnesses and counterexamples -/

/-- A sample environment whose repository directory name has upper-case
letters. -/
def envW : Env := ⟨str ("anna"), str ("main"), str ("MyRepo"), str ("2024-01-01 00:00:00")⟩

/-- A sample environment with an all-lower-case repository directory name. -/
def envL : Env := ⟨str ("anna"), str ("main"), str ("myrepo"), str ("2024-01-01 00:00:00")⟩

/-- A one-file filesystem holding a candidate file with a header block. -/
def s0W : St :=
  ⟨[(str ("/x/a.conf"), str ("#---\n  $Rev: 1\n#---\nbody\n"))], none, []⟩

/-- The staged-file list for the sample commit. -/
def filesW : List Str := [str ("/x/a.conf")]

/-- A staged-file list naming a file that does not exist (its read fails). -/
def filesBad : List Str := [str ("/x/missing.conf")]

/-! ## Lemmas about the association-list operations -/

theorem lookupA_assocSet_self {κ ν : Type} [DecidableEq κ]
    (l : List (κ × ν)) (k : κ) (v : ν) :
    lookupA (assocSet l k v) k = some v := by
  induction l with
  | nil => simp [lookupA, assocSet]
  | cons hd t ih =>
    by_cases h : hd.1 = k
    · simp [lookupA, assocSet, h]
    · simp [lookupA, assocSet, h, ih]

theorem lookupA_assocSet_ne {κ ν : Type} [DecidableEq κ]
    (l : List (κ × ν)) (k k2 : κ) (v : ν) (h : k ≠ k2) :
    lookupA (assocSet l k v) k2 = lookupA l k2 := by
  induction l with
  | nil => simp [lookupA, assocSet, h]
  | cons hd t ih =>
    by_cases h2 : hd.1 = k
    · simp [lookupA, assocSet, h2, h]
    · simp [lookupA, assocSet, h2, ih]

/-! ## Lemmas about `startswith` -/

theorem startswith_length {r p : Str} (h : startswith r p = true) :
    p.length ≤ r.length := by
  induction p generalizing r with
  | nil => simp
  | cons q ps ih =>
    cases r with
    | nil => simp [startswith] at h
    | cons c s =>
      simp only [startswith, Bool.and_eq_true] at h
      simpa using Nat.succ_le_succ (ih h.2)

theorem startswith_of_take {p : Str} (n : Nat) (hp : p.length ≤ n)
    {r r2 : Str} (h : r.take n = r2.take n) :
    startswith r p = startswith r2 p := by
  induction p generalizing r r2 n with
  | nil => cases r <;> cases r2 <;> rfl
  | cons q ps ih =>
    cases n with
    | zero => simp at hp
    | succ m =>
      cases r with
      | nil =>
        cases r2 with
        | nil => rfl
        | cons c2 s2 => simp [List.take] at h
      | cons c s =>
        cases r2 with
        | nil => simp [List.take] at h
        | cons c2 s2 =>
          simp only [List.take, List.cons.injEq] at h
          simp only [startswith, h.1, ih m (Nat.le_of_succ_le_succ hp) h.2]

/-! ## Lemmas about newline translation and line splitting -/

theorem normNL_nil : normNL [] = [] := rfl

theorem normNL_cr_nil : normNL ['\r'] = ['\n'] := by
  rw [normNL.eq_2, if_pos rfl]

theorem normNL_crlf (z : Str) : normNL ('\r' :: '\n' :: z) = '\n' :: normNL z := by
  rw [normNL.eq_3, if_pos rfl]

theorem normNL_cr (c2 : Char) (z2 : Str) (h : c2 ≠ '\n') :
    normNL ('\r' :: c2 :: z2) = '\n' :: normNL (c2 :: z2) := by
  rw [normNL.eq_4 '\r' c2 z2 (fun he => h he), if_pos rfl]

theorem normNL_cons (c : Char) (z : Str) (h : c ≠ '\r') :
    normNL (c :: z) = c :: normNL z := by
  cases z with
  | nil => rw [normNL.eq_2, if_neg h]
  | cons c2 z2 =>
    by_cases h2 : c2 = '\n'
    · subst h2; rw [normNL.eq_3, if_neg h]
    · rw [normNL.eq_4 c c2 z2 (fun he => h2 he), if_neg h]

theorem normNL_ne_nil (z : Str) (h : z ≠ []) : normNL z ≠ [] := by
  cases z with
  | nil => exact absurd rfl h
  | cons c z2 =>
    by_cases hc : c = '\r'
    · subst hc
      cases z2 with
      | nil => simp [normNL_cr_nil]
      | cons c2 z3 =>
        by_cases h2 : c2 = '\n'
        · subst h2; rw [normNL_crlf]; simp
        · rw [normNL_cr c2 z3 h2]; simp
    · rw [normNL_cons c z2 hc]; simp

theorem normNL_no_cr (z : Str) : ∀ c ∈ normNL z, c ≠ '\r' := by
  induction z using normNL.induct with
  | case1 => simp [normNL_nil]
  | case2 =>
    rw [normNL_cr_nil]
    intro c hc
    rcases List.mem_singleton.mp hc with h1
    subst h1; decide
  | case3 z2 ih =>
    rw [normNL_crlf]
    intro c hc
    rcases List.mem_cons.mp hc with h1 | h1
    · subst h1; decide
    · exact ih c h1
  | case4 c2 z2 hne ih =>
    rw [normNL_cr c2 z2 (fun he => hne he)]
    intro c hc
    rcases List.mem_cons.mp hc with h1 | h1
    · subst h1; decide
    · exact ih c h1
  | case5 c z2 hc ih =>
    rw [normNL_cons c z2 hc]
    intro d hd
    rcases List.mem_cons.mp hd with h1 | h1
    · subst h1; exact hc
    · exact ih d h1

theorem normNL_append (a b : Str) (ha : ∀ c ∈ a, c ≠ '\r') :
    normNL (a ++ b) = a ++ normNL b := by
  induction a with
  | nil => simp
  | cons c a2 ih =>
    have hc : c ≠ '\r' := ha c (List.mem_cons_self ..)
    rw [List.cons_append, normNL_cons c (a2 ++ b) hc,
        ih (fun d hd => ha d (List.mem_cons_of_mem c hd)), List.cons_append]

theorem normNL_id (a : Str) (ha : ∀ c ∈ a, c ≠ '\r') : normNL a = a := by
  have h := normNL_append a [] ha
  simpa [normNL_nil] using h

theorem splitLines_nil : splitLines [] = [] := rfl

theorem splitLines_nl (z : Str) :
    splitLines ('\n' :: z) = ['\n'] :: splitLines z := by
  rw [splitLines.eq_2, if_pos rfl]

theorem splitLines_cons_nil (c : Char) (z : Str) (h : c ≠ '\n')
    (h2 : splitLines z = []) : splitLines (c :: z) = [[c]] := by
  rw [splitLines.eq_2, if_neg h, h2]

theorem splitLines_cons_cons (c : Char) (z l : Str) (ls : List Str)
    (h : c ≠ '\n') (h2 : splitLines z = l :: ls) :
    splitLines (c :: z) = (c :: l) :: ls := by
  rw [splitLines.eq_2, if_neg h, h2]

theorem splitLines_eq_nil (z : Str) (h : splitLines z = []) : z = [] := by
  cases z with
  | nil => rfl
  | cons c z2 =>
    by_cases hc : c = '\n'
    · subst hc; rw [splitLines_nl] at h; cases h
    · cases h2 : splitLines z2 with
      | nil => rw [splitLines_cons_nil c z2 hc h2] at h; cases h
      | cons l ls => rw [splitLines_cons_cons c z2 l ls hc h2] at h; cases h

theorem splitLines_ne_nil (z : Str) (h : z ≠ []) : splitLines z ≠ [] :=
  fun he => h (splitLines_eq_nil z he)

theorem splitLines_flatten (z : Str) : (splitLines z).flatten = z := by
  induction z with
  | nil => simp [splitLines_nil]
  | cons c z2 ih =>
    by_cases hc : c = '\n'
    · subst hc; rw [splitLines_nl]; simpa using ih
    · cases h2 : splitLines z2 with
      | nil =>
        rw [splitLines_cons_nil c z2 hc h2]
        have hz : z2 = [] := splitLines_eq_nil z2 h2
        subst hz; simp
      | cons l ls =>
        rw [splitLines_cons_cons c z2 l ls hc h2]
        rw [h2] at ih
        simp only [List.flatten_cons] at ih ⊢
        simp [ih]

theorem splitLines_append (s z : Str) (hs : ∀ c ∈ s, c ≠ '\n') :
    splitLines (s ++ '\n' :: z) = (s ++ ['\n']) :: splitLines z := by
  induction s with
  | nil => simpa using splitLines_nl z
  | cons c s2 ih =>
    have hc : c ≠ '\n' := hs c (List.mem_cons_self ..)
    have ih2 := ih (fun d hd => hs d (List.mem_cons_of_mem c hd))
    rw [List.cons_append,
        splitLines_cons_cons c (s2 ++ '\n' :: z) (s2 ++ ['\n']) (splitLines z) hc ih2,
        List.cons_append]

theorem splitLines_no_nl (a : Str) (ha : ∀ c ∈ a, c ≠ '\n') (h : a ≠ []) :
    splitLines a = [a] := by
  induction a with
  | nil => exact absurd rfl h
  | cons c a2 ih =>
    have hc : c ≠ '\n' := ha c (List.mem_cons_self ..)
    cases a2 with
    | nil => exact splitLines_cons_nil c [] hc splitLines_nil
    | cons d a3 =>
      have ih2 := ih (fun e he => ha e (List.mem_cons_of_mem c he)) (by simp)
      exact splitLines_cons_cons c (d :: a3) (d :: a3) [] hc ih2

theorem splitLines_head_shape (z r0 : Str) (rest : List Str)
    (h : splitLines z = r0 :: rest) :
    (∃ s, r0 = s ++ ['\n'] ∧ ∀ c ∈ s, c ≠ '\n') ∨
    (rest = [] ∧ r0 = z ∧ ∀ c ∈ z, c ≠ '\n') := by
  induction z generalizing r0 rest with
  | nil => rw [splitLines_nil] at h; cases h
  | cons c z2 ih =>
    by_cases hc : c = '\n'
    · subst hc
      rw [splitLines_nl] at h
      injection h with e1 e2
      left
      exact ⟨[], by rw [← e1]; rfl, by simp⟩
    · cases h2 : splitLines z2 with
      | nil =>
        rw [splitLines_cons_nil c z2 hc h2] at h
        have hz : z2 = [] := splitLines_eq_nil z2 h2
        subst hz
        injection h with e1 e2
        right
        refine ⟨e2.symm, e1.symm, ?_⟩
        intro d hd
        rw [List.mem_singleton.mp hd]
        exact hc
      | cons l ls =>
        rw [splitLines_cons_cons c z2 l ls hc h2] at h
        injection h with e1 e2
        rcases ih l ls h2 with ⟨s, hs1, hs2⟩ | ⟨hr, hl, hnl⟩
        · left
          refine ⟨c :: s, ?_, ?_⟩
          · rw [← e1, hs1]; rfl
          · intro d hd
            rcases List.mem_cons.mp hd with h3 | h3
            · subst h3; exact hc
            · exact hs2 d h3
        · right
          refine ⟨by rw [← e2, hr], by rw [← e1, hl], ?_⟩
          intro d hd
          rcases List.mem_cons.mp hd with h3 | h3
          · subst h3; exact hc
          · exact hnl d h3

/-! ## The first line survives a header rewrite

`crc_of` hashes (the characters of) the first line of the file, and
`update_header_block` never substitutes inside the first row it writes (the
`header_active` toggle is still `None` there), so the checksum recomputed on
a rewritten file equals the checksum computed on its original content.  This
is the fact that makes the second commit attempt a no-op. -/

theorem rewriteRows_cons_none (marker user rev date repo row : Str)
    (rest : List Str) :
    rewriteRows marker user rev date repo none (row :: rest) =
      (row :: (rewriteRows marker user rev date repo
          (if startswith row marker = true then some true else none) rest).1,
        (rewriteRows marker user rev date repo
          (if startswith row marker = true then some true else none) rest).2) := by
  simp [rewriteRows]

theorem firstLine_rewriteContent (marker user rev date repo c : Str)
    (hc : c ≠ []) :
    firstLine (rewriteContent marker user rev date repo c) = firstLine c := by
  have hnn : normNL c ≠ [] := normNL_ne_nil c hc
  have hsl : splitLines (normNL c) ≠ [] := splitLines_ne_nil _ hnn
  obtain ⟨r0, rest, hL⟩ : ∃ r0 rest, splitLines (normNL c) = r0 :: rest := by
    cases hE : splitLines (normNL c) with
    | nil => exact absurd hE hsl
    | cons a b => exact ⟨a, b, rfl⟩
  have hr0cr : ∀ ch ∈ r0, ch ≠ '\r' := by
    intro ch hch
    have hmem : ch ∈ normNL c := by
      rw [← splitLines_flatten (normNL c), hL]
      exact List.mem_flatten.mpr ⟨r0, List.mem_cons_self .., hch⟩
    exact normNL_no_cr c ch hmem
  have hfc : firstLine c = r0 := by
    show (univLines c).headD [] = r0
    show (splitLines (normNL c)).headD [] = r0
    rw [hL]; rfl
  have hout : rewriteContent marker user rev date repo c =
      r0 ++ ((rewriteRows marker user rev date repo
        (if startswith r0 marker = true then some true else none) rest).1).flatten := by
    show ((rewriteRows marker user rev date repo none (univLines c)).1).flatten = _
    show ((rewriteRows marker user rev date repo none (splitLines (normNL c))).1).flatten = _
    rw [hL, rewriteRows_cons_none]
    simp
  rw [hout, hfc]
  rcases splitLines_head_shape (normNL c) r0 rest hL with ⟨s, hs1, hs2⟩ | ⟨hrest, hr0, hnl⟩
  · have hscr : ∀ ch ∈ s ++ ['\n'], ch ≠ '\r' := by
      intro ch hch
      exact hr0cr ch (by rw [hs1]; exact hch)
    show (splitLines (normNL (r0 ++ _))).headD [] = r0
    rw [hs1]
    have h2 : ∀ T : Str, normNL ((s ++ ['\n']) ++ T) = s ++ '\n' :: normNL T := by
      intro T
      have h3 := normNL_append (s ++ ['\n']) T hscr
      simpa using h3
    rw [h2, splitLines_append s _ hs2]
    rfl
  · subst hrest
    have hT : ((rewriteRows marker user rev date repo
        (if startswith r0 marker = true then some true else none)
        ([] : List Str)).1).flatten = ([] : Str) := by
      simp [rewriteRows]
    rw [hT, List.append_nil]
    show (splitLines (normNL r0)).headD [] = r0
    have hnlr : ∀ ch ∈ r0, ch ≠ '\n' := fun ch hch => hnl ch (hr0 ▸ hch)
    have hne : r0 ≠ [] := by rw [hr0]; exact hnn
    rw [normNL_id r0 hr0cr, splitLines_no_nl r0 hnlr hne]
    rfl

/-- The checksum of a rewritten file equals the checksum of its original
content: `crc_of` only consumes the first line, which the rewrite loop copies
verbatim (the toggle is still `None` on the first row, modulo the same
newline translation both reads apply). -/
theorem crcOf_rewriteContent (marker user rev date repo c : Str) (hc : c ≠ []) :
    crcOf marker (rewriteContent marker user rev date repo c) = crcOf marker c := by
  unfold crcOf
  rw [firstLine_rewriteContent marker user rev date repo c hc]

/-! ## The substitutions never change the first characters of a row

Each pattern requires at least one space before a tag of length at least 5,
so a substitution can only change a row from position 6 onwards; the
4-character header markers therefore match a row before and after
substitution in exactly the same way. -/

theorem tryMatch_facts (tag l : Str) (k : Nat) (h : tryMatch tag l = some k) :
    1 ≤ k ∧ startswith (l.drop k) tag = true ∧ afterTagOk tag (l.drop k) = true := by
  unfold tryMatch at h
  split at h
  · next hcond =>
    injection h with h2
    subst h2
    exact hcond
  · cases h

theorem tryMatch_length (tag l : Str) (k : Nat) (h : tryMatch tag l = some k) :
    k + tag.length + 1 ≤ l.length := by
  obtain ⟨h1, h2, h3⟩ := tryMatch_facts tag l k h
  have h4 : (l.drop k).drop tag.length ≠ [] := by
    intro he
    unfold afterTagOk at h3
    rw [he] at h3
    cases h3
  rw [List.drop_drop] at h4
  have h5 : ¬ l.length ≤ k + tag.length := by
    intro hle
    exact h4 (List.drop_eq_nil_of_le (by omega))
  omega

theorem substTag_take (tag value : Str) (htag : 5 ≤ tag.length) :
    ∀ (r : Str) (n : Nat), n ≤ 6 → (substTag tag value r).take n = r.take n := by
  intro r
  induction r with
  | nil => intro n hn; rfl
  | cons c rest ih =>
    intro n hn
    rw [substTag.eq_2]
    cases hm : tryMatch tag (c :: rest) with
    | some k =>
      simp only []
      obtain ⟨hk, _, _⟩ := tryMatch_facts tag (c :: rest) k hm
      have hlen := tryMatch_length tag (c :: rest) k hm
      have h1 : n ≤ ((c :: rest).take (k + tag.length)).length := by
        rw [List.length_take]
        omega
      rw [List.append_assoc, List.take_append_of_le_length h1, List.take_take]
      congr 1
      omega
    | none =>
      simp only []
      cases n with
      | zero => rfl
      | succ m =>
        rw [List.take_succ_cons, List.take_succ_cons, ih m (by omega)]

theorem substAllTags_take (user rev date repo row : Str) (n : Nat) (hn : n ≤ 6) :
    (substAllTags user rev date repo row).take n = row.take n := by
  unfold substAllTags
  rw [substTag_take tagRepo repo (by decide) _ n hn,
      substTag_take tagDate date (by decide) _ n hn,
      substTag_take tagRev rev (by decide) _ n hn,
      substTag_take tagAuthor user (by decide) _ n hn]

theorem startswith_substAllTags (marker user rev date repo row : Str)
    (hm : marker.length ≤ 4) :
    startswith (substAllTags user rev date repo row) marker = startswith row marker :=
  startswith_of_take 4 hm (substAllTags_take user rev date repo row 4 (by omega))

/-! ## How the rewrite loop walks marker segments -/

theorem rewriteRows_closed (marker user rev date repo : Str) (l : List Str) :
    rewriteRows marker user rev date repo (some false) l = (l, some false) := by
  induction l with
  | nil => rfl
  | cons row rest ih => simp [rewriteRows, ih]

theorem rewriteRows_cons_open (marker user rev date repo row : Str)
    (rest : List Str) :
    rewriteRows marker user rev date repo (some true) (row :: rest) =
      (substAllTags user rev date repo row ::
        (rewriteRows marker user rev date repo
          (if startswith (substAllTags user rev date repo row) marker = true
           then some false else some true) rest).1,
        (rewriteRows marker user rev date repo
          (if startswith (substAllTags user rev date repo row) marker = true
           then some false else some true) rest).2) := by
  by_cases h : startswith (substAllTags user rev date repo row) marker = true
  · simp [rewriteRows, h]
  · simp [rewriteRows, h]

theorem rewriteRows_none_seg (marker user rev date repo : Str)
    (pre l : List Str)
    (hpre : ∀ r ∈ pre, startswith r marker = false) :
    rewriteRows marker user rev date repo none (pre ++ l) =
      (pre ++ (rewriteRows marker user rev date repo none l).1,
        (rewriteRows marker user rev date repo none l).2) := by
  induction pre with
  | nil => simp
  | cons row pre2 ih =>
    have hr : startswith row marker = false := hpre row (List.mem_cons_self ..)
    rw [List.cons_append, rewriteRows_cons_none, hr]
    simp only [Bool.false_eq_true, if_false]
    rw [ih (fun r h => hpre r (List.mem_cons_of_mem _ h))]
    simp

theorem rewriteRows_open_seg (marker user rev date repo : Str)
    (l : List Str) (hm : marker.length ≤ 4)
    (hl : ∀ r ∈ l, startswith r marker = false) :
    rewriteRows marker user rev date repo (some true) l =
      (l.map (substAllTags user rev date repo), some true) := by
  induction l with
  | nil => rfl
  | cons row rest ih =>
    have hr : startswith row marker = false := hl row (List.mem_cons_self ..)
    have hr2 : startswith (substAllTags user rev date repo row) marker = false := by
      rw [startswith_substAllTags marker user rev date repo row hm, hr]
    rw [rewriteRows_cons_open, hr2]
    simp only [Bool.false_eq_true, if_false]
    rw [ih (fun r h => hl r (List.mem_cons_of_mem _ h))]
    simp

/-! ## Unfolding lemmas for the orchestrator -/

theorem incrFetch_pos (led : Ledger) (key : Str × Str) :
    0 < (incrFetch led key).1 := by
  unfold incrFetch
  cases lookupA led key <;> simp

theorem updateHeaderBlock_zero (p crc content : Str) (rs : RunSt)
    (h : rs.data.rev = 0) :
    updateHeaderBlock p crc content rs =
      ⟨⟨rs.data.user, assocSet rs.data.files p crc, rs.data.repo,
          (incrFetch rs.ledger (rs.data.repo, rs.data.branch)).1,
          rs.data.branch, rs.data.date⟩,
        assocSet rs.fs p (rewriteContent (markerOf p) rs.data.user
          (natStr (incrFetch rs.ledger (rs.data.repo, rs.data.branch)).1)
          rs.data.date rs.data.repo content),
        (incrFetch rs.ledger (rs.data.repo, rs.data.branch)).2, true,
        ⟨rs.g.calls + 1,
          rs.g.revs ++ [(incrFetch rs.ledger (rs.data.repo, rs.data.branch)).1],
          rs.g.rewrites ++ [p], rs.g.wrote⟩⟩ := by
  obtain ⟨⟨u, fl, rp, rv, br, dt⟩, fs, led, m, ⟨ca, revs, rws, wr⟩⟩ := rs
  simp only at h
  subst h
  simp [updateHeaderBlock]

theorem updateHeaderBlock_pos (p crc content : Str) (rs : RunSt)
    (h : rs.data.rev ≠ 0) :
    updateHeaderBlock p crc content rs =
      ⟨⟨rs.data.user, assocSet rs.data.files p crc, rs.data.repo,
          rs.data.rev, rs.data.branch, rs.data.date⟩,
        assocSet rs.fs p (rewriteContent (markerOf p) rs.data.user
          (natStr rs.data.rev) rs.data.date rs.data.repo content),
        rs.ledger, true,
        ⟨rs.g.calls, rs.g.revs ++ [rs.data.rev],
          rs.g.rewrites ++ [p], rs.g.wrote⟩⟩ := by
  obtain ⟨⟨u, fl, rp, rv, br, dt⟩, fs, led, m, ⟨ca, revs, rws, wr⟩⟩ := rs
  simp only at h
  simp [updateHeaderBlock, h]

theorem processFile_read_fail (p : Str) (rs : RunSt)
    (h : lookupA rs.fs p = none) : processFile p rs = .error p := by
  unfold processFile
  rw [h]

theorem processFile_empty (p : Str) (rs : RunSt)
    (h : lookupA rs.fs p = some []) : processFile p rs = .ok rs := by
  unfold processFile
  rw [h]
  simp

theorem processFile_same (p content : Str) (rs : RunSt)
    (h : lookupA rs.fs p = some content) (hne : content ≠ [])
    (hcrc : lookupA rs.data.files p = some (crcOf (markerOf p) content)) :
    processFile p rs = .ok rs := by
  unfold processFile
  rw [h]
  simp [hne, hcrc]

theorem processFile_diff (p content : Str) (rs : RunSt)
    (h : lookupA rs.fs p = some content) (hne : content ≠ [])
    (hcrc : lookupA rs.data.files p ≠ some (crcOf (markerOf p) content)) :
    processFile p rs =
      .ok (updateHeaderBlock p (crcOf (markerOf p) content) content rs) := by
  unfold processFile
  rw [h]
  simp [hne, hcrc]

theorem processLoop_nil (rs : RunSt) : processLoop [] rs = (none, rs) := rfl

theorem processLoop_skip (p : Str) (ps : List Str) (rs : RunSt)
    (h : patchable p = false) :
    processLoop (p :: ps) rs = processLoop ps rs := by
  simp [processLoop, h]

theorem processLoop_err (p : Str) (ps : List Str) (rs : RunSt) (e : Str)
    (h : patchable p = true) (he : processFile p rs = .error e) :
    processLoop (p :: ps) rs = (some e, rs) := by
  simp [processLoop, h, he]

theorem processLoop_ok (p : Str) (ps : List Str) (rs rs1 : RunSt)
    (h : patchable p = true) (ho : processFile p rs = .ok rs1) :
    processLoop (p :: ps) rs = processLoop ps rs1 := by
  simp [processLoop, h, ho]

/-! ## The loop invariant is preserved -/

theorem runInv_processFile (r0 : Nat) (p : Str) (rs rs1 : RunSt)
    (h : processFile p rs = .ok rs1) (inv : RunInv r0 rs) : RunInv r0 rs1 := by
  cases hl : lookupA rs.fs p with
  | none => rw [processFile_read_fail p rs hl] at h; cases h
  | some content =>
    by_cases hc : content = []
    · subst hc
      rw [processFile_empty p rs hl] at h
      injection h with h2
      rw [← h2]
      exact inv
    · by_cases hcrc : lookupA rs.data.files p = some (crcOf (markerOf p) content)
      · rw [processFile_same p content rs hl hc hcrc] at h
        injection h with h2
        rw [← h2]
        exact inv
      · rw [processFile_diff p content rs hl hc hcrc] at h
        injection h with h2
        rw [← h2]
        by_cases hrev : rs.data.rev = 0
        · rw [updateHeaderBlock_zero _ _ _ _ hrev]
          obtain ⟨hz1, hz2⟩ := inv.rev_zero hrev
          refine ⟨?_, ?_, ?_, ?_, ?_, ?_, ?_⟩
          · simp [hz1]
          · intro he
            have := incrFetch_pos rs.ledger (rs.data.repo, rs.data.branch)
            simp only at he
            omega
          · intro v hv
            simp only [hz2, List.nil_append, List.mem_singleton] at hv
            subst hv
            exact ⟨rfl, incrFetch_pos rs.ledger (rs.data.repo, rs.data.branch)⟩
          · intro h0
            have hs := (inv.stable h0).1
            rw [hrev] at hs
            omega
          · simp
          · simp [inv.len_eq]
          · exact inv.wrote_false
        · rw [updateHeaderBlock_pos _ _ _ _ hrev]
          refine ⟨?_, ?_, ?_, ?_, ?_, ?_, ?_⟩
          · exact inv.calls_le
          · intro he
            exact absurd he hrev
          · intro v hv
            rcases List.mem_append.mp hv with h3 | h3
            · exact inv.revs_eq v h3
            · rw [List.mem_singleton.mp h3]
              exact ⟨rfl, Nat.pos_of_ne_zero hrev⟩
          · intro h0
            exact ⟨(inv.stable h0).1, (inv.stable h0).2⟩
          · simp
          · simp [inv.len_eq]
          · exact inv.wrote_false

theorem runInv_processLoop (r0 : Nat) (ps : List Str) (rs : RunSt)
    (inv : RunInv r0 rs) : RunInv r0 (processLoop ps rs).2 := by
  induction ps generalizing rs with
  | nil => exact inv
  | cons p ps ih =>
    cases hp : patchable p with
    | false =>
      rw [processLoop_skip p ps rs hp]
      exact ih rs inv
    | true =>
      cases hf : processFile p rs with
      | error e =>
        rw [processLoop_err p ps rs e hp hf]
        exact inv
      | ok rs1 =>
        rw [processLoop_ok p ps rs rs1 hp hf]
        exact ih rs1 (runInv_processFile r0 p rs rs1 hf inv)

/-! ## The modified flag only moves from false to true, and an unmodified
loop leaves the state untouched -/

theorem processFile_ok_modified (p : Str) (rs rs1 : RunSt)
    (h : processFile p rs = .ok rs1) : rs1 = rs ∨ rs1.modified = true := by
  cases hl : lookupA rs.fs p with
  | none => rw [processFile_read_fail p rs hl] at h; cases h
  | some content =>
    by_cases hc : content = []
    · subst hc
      rw [processFile_empty p rs hl] at h
      injection h with h2
      exact Or.inl h2.symm
    · by_cases hcrc : lookupA rs.data.files p = some (crcOf (markerOf p) content)
      · rw [processFile_same p content rs hl hc hcrc] at h
        injection h with h2
        exact Or.inl h2.symm
      · rw [processFile_diff p content rs hl hc hcrc] at h
        injection h with h2
        right
        rw [← h2]
        by_cases hrev : rs.data.rev = 0
        · rw [updateHeaderBlock_zero _ _ _ _ hrev]
        · rw [updateHeaderBlock_pos _ _ _ _ hrev]

theorem processLoop_unmod (ps : List Str) (rs : RunSt) (e : Option Str)
    (rs1 : RunSt) (h : processLoop ps rs = (e, rs1))
    (hm : rs1.modified = false) : rs1 = rs := by
  induction ps generalizing rs with
  | nil =>
    rw [processLoop_nil] at h
    injection h with h1 h2
    exact h2.symm
  | cons p ps ih =>
    cases hp : patchable p with
    | false =>
      rw [processLoop_skip p ps rs hp] at h
      exact ih rs h
    | true =>
      cases hf : processFile p rs with
      | error e2 =>
        rw [processLoop_err p ps rs e2 hp hf] at h
        injection h with h1 h2
        exact h2.symm
      | ok rs2 =>
        rw [processLoop_ok p ps rs rs2 hp hf] at h
        have h2 := ih rs2 h
        rcases processFile_ok_modified p rs rs2 hf with h3 | h3
        · rw [h2, h3]
        · rw [h2] at hm
          rw [hm] at h3
          cases h3

/-! ## Checksum/file consistency: established by a rewrite, preserved by the
rest of the loop, and turning the next loop into a no-op -/

theorem consistentAt_establish (p : Str) (rs rs1 : RunSt)
    (h : processFile p rs = .ok rs1) :
    ConsistentAt rs1.fs rs1.data.files p := by
  intro hp
  cases hl : lookupA rs.fs p with
  | none => rw [processFile_read_fail p rs hl] at h; cases h
  | some content =>
    by_cases hc : content = []
    · subst hc
      rw [processFile_empty p rs hl] at h
      injection h with h2
      rw [← h2]
      exact ⟨[], hl, fun hne => absurd rfl hne⟩
    · by_cases hcrc : lookupA rs.data.files p = some (crcOf (markerOf p) content)
      · rw [processFile_same p content rs hl hc hcrc] at h
        injection h with h2
        rw [← h2]
        exact ⟨content, hl, fun _ => hcrc⟩
      · rw [processFile_diff p content rs hl hc hcrc] at h
        injection h with h2
        rw [← h2]
        by_cases hrev : rs.data.rev = 0
        · rw [updateHeaderBlock_zero _ _ _ _ hrev]
          refine ⟨_, lookupA_assocSet_self .., fun _ => ?_⟩
          rw [crcOf_rewriteContent _ _ _ _ _ content hc]
          exact lookupA_assocSet_self ..
        · rw [updateHeaderBlock_pos _ _ _ _ hrev]
          refine ⟨_, lookupA_assocSet_self .., fun _ => ?_⟩
          rw [crcOf_rewriteContent _ _ _ _ _ content hc]
          exact lookupA_assocSet_self ..

theorem consistentAt_preserve_file (p q : Str) (rs rs1 : RunSt)
    (hpq : p ≠ q) (h : processFile q rs = .ok rs1)
    (hC : ConsistentAt rs.fs rs.data.files p) :
    ConsistentAt rs1.fs rs1.data.files p := by
  cases hl : lookupA rs.fs q with
  | none => rw [processFile_read_fail q rs hl] at h; cases h
  | some content =>
    by_cases hc : content = []
    · subst hc
      rw [processFile_empty q rs hl] at h
      injection h with h2
      rw [← h2]
      exact hC
    · by_cases hcrc : lookupA rs.data.files q = some (crcOf (markerOf q) content)
      · rw [processFile_same q content rs hl hc hcrc] at h
        injection h with h2
        rw [← h2]
        exact hC
      · rw [processFile_diff q content rs hl hc hcrc] at h
        injection h with h2
        rw [← h2]
        intro hp
        obtain ⟨c2, hc2, hcrc2⟩ := hC hp
        by_cases hrev : rs.data.rev = 0
        · rw [updateHeaderBlock_zero _ _ _ _ hrev]
          refine ⟨c2, ?_, fun hne => ?_⟩
          · rw [lookupA_assocSet_ne _ _ _ _ (fun he => hpq he.symm)]
            exact hc2
          · rw [lookupA_assocSet_ne _ _ _ _ (fun he => hpq he.symm)]
            exact hcrc2 hne
        · rw [updateHeaderBlock_pos _ _ _ _ hrev]
          refine ⟨c2, ?_, fun hne => ?_⟩
          · rw [lookupA_assocSet_ne _ _ _ _ (fun he => hpq he.symm)]
            exact hc2
          · rw [lookupA_assocSet_ne _ _ _ _ (fun he => hpq he.symm)]
            exact hcrc2 hne

theorem consistentAt_preserve_loop (qs : List Str) (rs : RunSt) (p : Str)
    (hC : ConsistentAt rs.fs rs.data.files p) :
    ConsistentAt (processLoop qs rs).2.fs (processLoop qs rs).2.data.files p
      ∨ p ∈ qs := by
  induction qs generalizing rs with
  | nil => exact Or.inl hC
  | cons q qs ih =>
    by_cases hpq : p = q
    · exact Or.inr (hpq ▸ List.mem_cons_self ..)
    · cases hq : patchable q with
      | false =>
        rw [processLoop_skip q qs rs hq]
        rcases ih rs hC with h | h
        · exact Or.inl h
        · exact Or.inr (List.mem_cons_of_mem _ h)
      | true =>
        cases hf : processFile q rs with
        | error e =>
          rw [processLoop_err q qs rs e hq hf]
          exact Or.inl hC
        | ok rs1 =>
          rw [processLoop_ok q qs rs rs1 hq hf]
          rcases ih rs1 (consistentAt_preserve_file p q rs rs1 hpq hf hC) with h | h
          · exact Or.inl h
          · exact Or.inr (List.mem_cons_of_mem _ h)

theorem consistent_after_loop (ps : List Str) (rs rs1 : RunSt)
    (h : processLoop ps rs = (none, rs1)) :
    ∀ p ∈ ps, ConsistentAt rs1.fs rs1.data.files p := by
  induction ps generalizing rs with
  | nil => intro p hp; cases hp
  | cons q qs ih =>
    intro p hp
    cases hq : patchable q with
    | false =>
      rw [processLoop_skip q qs rs hq] at h
      rcases List.mem_cons.mp hp with h1 | h1
      · subst h1
        intro hpatch
        rw [hq] at hpatch
        cases hpatch
      · exact ih rs h p h1
    | true =>
      cases hf : processFile q rs with
      | error e =>
        rw [processLoop_err q qs rs e hq hf] at h
        injection h with h1 h2
        cases h1
      | ok rs2 =>
        rw [processLoop_ok q qs rs rs2 hq hf] at h
        rcases List.mem_cons.mp hp with h1 | h1
        · subst h1
          rcases consistentAt_preserve_loop qs rs2 p
              (consistentAt_establish p rs rs2 hf) with h3 | h3
          · rw [h] at h3
            exact h3
          · exact ih rs2 h p h3
        · exact ih rs2 h p h1

theorem processLoop_noop (ps : List Str) (rs : RunSt)
    (hC : ∀ p ∈ ps, ConsistentAt rs.fs rs.data.files p) :
    processLoop ps rs = (none, rs) := by
  induction ps with
  | nil => exact processLoop_nil rs
  | cons q qs ih =>
    cases hq : patchable q with
    | false =>
      rw [processLoop_skip q qs rs hq]
      exact ih (fun p hp => hC p (List.mem_cons_of_mem _ hp))
    | true =>
      obtain ⟨content, hl, hcrc⟩ := hC q (List.mem_cons_self ..) hq
      by_cases hc : content = []
      · subst hc
        rw [processLoop_ok q qs rs rs hq (processFile_empty q rs hl)]
        exact ih (fun p hp => hC p (List.mem_cons_of_mem _ hp))
      · rw [processLoop_ok q qs rs rs hq
            (processFile_same q content rs hl hc (hcrc hc))]
        exact ih (fun p hp => hC p (List.mem_cons_of_mem _ hp))

/-! ## Unfolding `runHook` by loop outcome -/

theorem runHook_eq (env : Env) (files : List Str) (s : St) :
    runHook env files s =
      match processLoop files (initRS env s) with
      | (some e, rs) => ⟨some (mkDiag e), ⟨rs.fs, s.handoff, rs.ledger⟩, rs.g⟩
      | (none, rs) =>
        if rs.modified then
          ⟨none, ⟨rs.fs, some rs.data, rs.ledger⟩, { rs.g with wrote := true }⟩
        else ⟨none, ⟨rs.fs, s.handoff, rs.ledger⟩, rs.g⟩ := rfl

theorem runHook_error (env : Env) (files : List Str) (s : St) (e : Str)
    (rs : RunSt) (h : processLoop files (initRS env s) = (some e, rs)) :
    runHook env files s =
      ⟨some (mkDiag e), ⟨rs.fs, s.handoff, rs.ledger⟩, rs.g⟩ := by
  rw [runHook_eq, h]

theorem runHook_mod (env : Env) (files : List Str) (s : St) (rs : RunSt)
    (h : processLoop files (initRS env s) = (none, rs))
    (hm : rs.modified = true) :
    runHook env files s =
      ⟨none, ⟨rs.fs, some rs.data, rs.ledger⟩, { rs.g with wrote := true }⟩ := by
  rw [runHook_eq, h]
  simp [hm]

theorem runHook_unmod (env : Env) (files : List Str) (s : St) (rs : RunSt)
    (h : processLoop files (initRS env s) = (none, rs))
    (hm : rs.modified = false) :
    runHook env files s = ⟨none, ⟨rs.fs, s.handoff, rs.ledger⟩, rs.g⟩ := by
  rw [runHook_eq, h]
  simp [hm]

theorem runInv_init (env : Env) (s : St) :
    RunInv (initRS env s).data.rev (initRS env s) := by
  refine ⟨?_, ?_, ?_, ?_, ?_, ?_, ?_⟩ <;> simp [initRS]

/-! ## Claim C1 -/

/-- Claim C1: the claim says `crc_of` hashes every line outside the header
block, so that the checksum changes whenever any non-header byte changes.
The code iterates `enumerate(hdl.readline(), 1)`, i.e. the characters of the
first line only.  Evaluation at the failing input: two `.conf` files with no
header block at all (every byte is non-header) that differ in their second
line feed the identical character stream `"x\n"` to MD5, hence get the same
checksum, contradicting the claim.  The spec itself flags this defect
(§9, "reads only the file's first line"). -/
theorem c1_crc_hashes_first_line_only :
    crcOf (str ("#---")) (str ("x\ny\n")) = crcOf (str ("#---")) (str ("x\nz\n")) ∧
    str ("x\ny\n") ≠ str ("x\nz\n") ∧
    crcOf (str ("#---")) (str ("x\ny\n")) = str ("x\n") := by
  decide

/-! ## Claim C3 -/

/-- Claim C3: the claim says every line outside the header block is written
back byte-for-byte, including CRLF terminators.  The rewrite loop reads the
backup in text mode, whose universal-newline translation turns `\r\n` into
`\n` before the row is written back in binary mode, so a CRLF file with no
header block at all (every line outside any header) comes back with LF
endings.  This contradicts the code's own comment ("To keep the original
file EOL endings ...") as well as the claim. -/
theorem c3_crlf_is_normalized :
    rewriteContent (str ("#---")) (str ("u")) (str ("1")) (str ("d")) (str ("r"))
        (str ("a\r\nb\r\n")) = str ("a\nb\n") ∧
    str ("a\nb\n") ≠ str ("a\r\nb\r\n") := by
  decide

/-! ## Claim C5 -/

/-- Claim C5 counterexample: for the repository directory name `MyRepo`, the
pre-commit record stores the lower-cased `myrepo`
(`root_path.name.lower()`, line 331) while the post-commit finalizer
addresses the ledger by `repo_file.parent.name`, the directory name
verbatim (line 81), so the two steps use different (repository, branch)
keys. -/
theorem c5_repo_name_cex :
    (compileCommitData envW.rootName (freshCommitData envW) (str ("abc"))).name ≠
      (freshCommitData envW).repo := by
  decide

/-- Claim C5 (amended): the post-commit finalizer uses the repository
directory name verbatim, not the lower-cased name stored in the handoff
record; the two agree exactly when the directory name is already all
lower-case. -/
theorem c5_repo_name_agree_iff_lowercase (env : Env) (d : CommitData) (h : Str)
    (hl : strLower env.rootName = env.rootName) :
    (compileCommitData env.rootName d h).name = (freshCommitData env).repo := by
  simp [compileCommitData, freshCommitData, hl]

/-- Witness for the amended C5 at the all-lower-case directory name
`myrepo`. -/
theorem c5_repo_name_agree_iff_lowercase_witness :
    strLower envL.rootName = envL.rootName ∧
    (compileCommitData envL.rootName (freshCommitData envL) (str ("abc"))).name =
      (freshCommitData envL).repo :=
  ⟨by decide,
    c5_repo_name_agree_iff_lowercase envL (freshCommitData envL) (str ("abc"))
      (by decide)⟩

/-! ## Claims C8 and C10: marker-toggle behaviour of the rewrite loop -/

theorem rewriteRows_open_close (marker user rev date repo m2 : Str)
    (mid post : List Str) (hml : marker.length ≤ 4)
    (hmid : ∀ r ∈ mid, startswith r marker = false)
    (hm2 : startswith m2 marker = true) :
    rewriteRows marker user rev date repo (some true) (mid ++ m2 :: post) =
      (mid.map (substAllTags user rev date repo) ++
        substAllTags user rev date repo m2 :: post, some false) := by
  induction mid with
  | nil =>
    rw [List.nil_append, rewriteRows_cons_open]
    have h2 : startswith (substAllTags user rev date repo m2) marker = true := by
      rw [startswith_substAllTags marker user rev date repo m2 hml]
      exact hm2
    rw [h2, if_pos rfl, rewriteRows_closed]
    simp
  | cons r mid ih =>
    have hr : startswith r marker = false := hmid r (List.mem_cons_self ..)
    have hr2 : startswith (substAllTags user rev date repo r) marker = false := by
      rw [startswith_substAllTags marker user rev date repo r hml]
      exact hr
    rw [List.cons_append, rewriteRows_cons_open, hr2]
    simp only [Bool.false_eq_true, if_false]
    rw [ih (fun x hx => hmid x (List.mem_cons_of_mem _ hx))]
    simp

/-- Claim C8: in a file whose (translated) rows contain the header marker
exactly once, the `header_active` toggle of `update_header_block` flips to
open at that marker and stays open to end-of-file, so every later row is
treated as in-header: it is emitted with the four tag substitutions
applied.  The marker test runs on substituted rows, but a substitution never
changes the first 4 characters of a row, so the exactly-once hypothesis on
the input rows carries over. -/
theorem c8_single_marker_sticks_open (marker user rev date repo m : Str)
    (pre post : List Str) (hml : marker.length ≤ 4)
    (hpre : ∀ r ∈ pre, startswith r marker = false)
    (hm : startswith m marker = true)
    (hpost : ∀ r ∈ post, startswith r marker = false) :
    rewriteRows marker user rev date repo none (pre ++ m :: post) =
      (pre ++ m :: post.map (substAllTags user rev date repo), some true) := by
  rw [rewriteRows_none_seg marker user rev date repo pre (m :: post) hpre,
      rewriteRows_cons_none, hm, if_pos rfl,
      rewriteRows_open_seg marker user rev date repo post hml hpost]

/-- Witness for C8 on a concrete `.conf`-style file: one marker line, the
line after it gets its `$Rev:` tag substituted and the toggle ends open. -/
theorem c8_single_marker_sticks_open_witness :
    rewriteRows (str ("#---")) (str ("u")) (str ("7")) (str ("d")) (str ("r"))
        none ([str ("a\n")] ++ str ("#---\n") :: [str ("  $Rev: 1\n")]) =
      ([str ("a\n")] ++ str ("#---\n") ::
        [str ("  $Rev: 1\n")].map
          (substAllTags (str ("u")) (str ("7")) (str ("d")) (str ("r"))),
        some true) :=
  c8_single_marker_sticks_open (str ("#---")) (str ("u")) (str ("7"))
    (str ("d")) (str ("r")) (str ("#---\n")) [str ("a\n")] [str ("  $Rev: 1\n")]
    (by decide) (by decide) (by decide) (by decide)

/-- Claim C10 counterexample: the claim says substitution is applied only to
lines strictly between the first and second marker occurrences.  But the
second marker line itself is processed while the toggle is still open (the
substitutions run before the marker test in the loop body), so a closing
marker line that happens to contain a tag is rewritten: here the file's
second row `#--- $Rev: 1\n` closes the header yet comes back as
`#--- $Rev: 7\n`, and no line at all lies strictly between the markers. -/
theorem c10_second_marker_line_substituted_cex :
    (rewriteRows (str ("#---")) (str ("u")) (str ("7")) (str ("d")) (str ("r"))
        none [str ("#---\n"), str ("#--- $Rev: 1\n"), str ("  $Rev: 1\n")]).1 =
      [str ("#---\n"), str ("#--- $Rev: 7\n"), str ("  $Rev: 1\n")] ∧
    str ("#--- $Rev: 7\n") ≠ str ("#--- $Rev: 1\n") := by
  decide

/-- Claim C10 (amended): once the second marker occurrence has closed the
header block the toggle is never reopened — later rows, marker lines
included, pass through unsubstituted — and substitution is applied exactly
to the lines strictly between the two markers plus the closing marker line
itself (which is processed before the toggle flips shut). -/
theorem c10_closed_stays_closed (marker user rev date repo m1 m2 : Str)
    (pre mid post : List Str) (hml : marker.length ≤ 4)
    (hpre : ∀ r ∈ pre, startswith r marker = false)
    (hm1 : startswith m1 marker = true)
    (hmid : ∀ r ∈ mid, startswith r marker = false)
    (hm2 : startswith m2 marker = true) :
    rewriteRows marker user rev date repo none (pre ++ m1 :: (mid ++ m2 :: post)) =
      (pre ++ m1 :: (mid.map (substAllTags user rev date repo) ++
        substAllTags user rev date repo m2 :: post), some false) := by
  rw [rewriteRows_none_seg marker user rev date repo pre (m1 :: (mid ++ m2 :: post)) hpre,
      rewriteRows_cons_none, hm1, if_pos rfl,
      rewriteRows_open_close marker user rev date repo m2 mid post hml hmid hm2]

/-- Witness for the amended C10: a third marker occurrence after the closed
block passes through unchanged, as does a tag line following it. -/
theorem c10_closed_stays_closed_witness :
    rewriteRows (str ("#---")) (str ("u")) (str ("7")) (str ("d")) (str ("r"))
        none ([str ("a\n")] ++ str ("#---\n") ::
          ([str ("  $Rev: 1\n")] ++ str ("#---\n") ::
            [str ("#---\n"), str ("  $Rev: 1\n")])) =
      ([str ("a\n")] ++ str ("#---\n") ::
        ([str ("  $Rev: 1\n")].map
            (substAllTags (str ("u")) (str ("7")) (str ("d")) (str ("r"))) ++
          substAllTags (str ("u")) (str ("7")) (str ("d")) (str ("r"))
              (str ("#---\n")) ::
            [str ("#---\n"), str ("  $Rev: 1\n")]),
        some false) :=
  c10_closed_stays_closed (str ("#---")) (str ("u")) (str ("7")) (str ("d"))
    (str ("r")) (str ("#---\n")) (str ("#---\n")) [str ("a\n")]
    [str ("  $Rev: 1\n")] [str ("#---\n"), str ("  $Rev: 1\n")]
    (by decide) (by decide) (by decide) (by decide) (by decide)

/-! ## Claims C6, C7 and C9: persistence and failure behaviour of `run` -/

/-- Claim C6: a completed invocation writes the handoff file iff at least one
file was actually rewritten in that invocation, and an invocation that
writes nothing leaves the on-disk handoff exactly as it was. -/
theorem c6_persist_iff_modified (env : Env) (files : List Str) (s : St) :
    ((runHook env files s).err = none →
      ((runHook env files s).g.wrote = true ↔
        (runHook env files s).g.rewrites ≠ [])) ∧
    ((runHook env files s).g.wrote = false →
      (runHook env files s).st.handoff = s.handoff) := by
  have inv := runInv_processLoop (initRS env s).data.rev files (initRS env s)
    (runInv_init env s)
  cases hL : processLoop files (initRS env s) with
  | mk e? rs =>
    rw [hL] at inv
    cases e? with
    | some e =>
      rw [runHook_error env files s e rs hL]
      refine ⟨fun h => ?_, fun _ => rfl⟩
      cases h
    | none =>
      cases hm : rs.modified with
      | true =>
        rw [runHook_mod env files s rs hL hm]
        refine ⟨fun _ => ⟨fun _ => inv.mod_iff.mp hm, fun _ => rfl⟩, fun hw => ?_⟩
        cases hw
      | false =>
        rw [runHook_unmod env files s rs hL hm]
        refine ⟨fun _ => ⟨fun hw => ?_, fun hrw => ?_⟩, fun _ => rfl⟩
        · rw [inv.wrote_false] at hw
          cases hw
        · have h3 := inv.mod_iff.mpr hrw
          rw [hm] at h3
          cases h3

/-- Witness for C6: in the sample run one file is rewritten and the handoff
file is written. -/
theorem c6_persist_iff_modified_witness :
    (runHook envW filesW s0W).g.wrote = true :=
  ((c6_persist_iff_modified envW filesW s0W).1 (by decide)).mpr (by decide)

/-- Claim C7 counterexample: the claim says the diagnostic goes to standard
error.  On the sample failing run the diagnostic carries the original error
text but is printed by a bare `print(...)` call, which writes to standard
output, not standard error (line 354). -/
theorem c7_stderr_cex :
    ((runHook envW filesBad s0W).err.map Diag.stream) = some OutStream.stdout ∧
    OutStream.stdout ≠ OutStream.stderr := by
  decide

/-- Claim C7 (amended): every failing invocation reports a diagnostic that
contains the original error text and re-raises the exception, but the
diagnostic is written to standard output (a bare `print`), not standard
error. -/
theorem c7_error_reported_on_stdout (env : Env) (files : List Str) (s : St)
    (d : Diag) (h : (runHook env files s).err = some d) :
    d.stream = OutStream.stdout ∧ d.reraised = true ∧
      ∃ e, d.text = str ("ERROR: ") ++ e := by
  cases hL : processLoop files (initRS env s) with
  | mk e? rs =>
    cases e? with
    | some e =>
      rw [runHook_error env files s e rs hL] at h
      simp only at h
      injection h with h2
      rw [← h2]
      exact ⟨rfl, rfl, e, rfl⟩
    | none =>
      cases hm : rs.modified with
      | true =>
        rw [runHook_mod env files s rs hL hm] at h
        cases h
      | false =>
        rw [runHook_unmod env files s rs hL hm] at h
        cases h

/-- Witness for the amended C7 at the sample failing run. -/
theorem c7_error_reported_on_stdout_witness :
    (mkDiag (str ("/x/missing.conf"))).stream = OutStream.stdout ∧
    (mkDiag (str ("/x/missing.conf"))).reraised = true ∧
    ∃ e, (mkDiag (str ("/x/missing.conf"))).text = str ("ERROR: ") ++ e :=
  c7_error_reported_on_stdout envW filesBad s0W
    (mkDiag (str ("/x/missing.conf"))) (by decide)

/-- Claim C9: a failing invocation never reaches the handoff write at the end
of `run`, so the on-disk handoff record is exactly what it was before the
invocation started. -/
theorem c9_error_preserves_handoff (env : Env) (files : List Str) (s : St)
    (d : Diag) (h : (runHook env files s).err = some d) :
    (runHook env files s).st.handoff = s.handoff := by
  cases hL : processLoop files (initRS env s) with
  | mk e? rs =>
    cases e? with
    | some e =>
      rw [runHook_error env files s e rs hL]
    | none =>
      cases hm : rs.modified with
      | true =>
        rw [runHook_mod env files s rs hL hm] at h
        cases h
      | false =>
        rw [runHook_unmod env files s rs hL hm] at h
        cases h

/-- Witness for C9 at the sample failing run: the handoff file is absent
before and after. -/
theorem c9_error_preserves_handoff_witness :
    (runHook envW filesBad s0W).st.handoff = s0W.handoff :=
  c9_error_preserves_handoff envW filesBad s0W
    (mkDiag (str ("/x/missing.conf"))) (by decide)

/-! ## Claim C4: idempotence of the pre-commit engine -/

/-- Claim C4: after a successful invocation, running the engine again on the
same file set with no source edits in between rewrites nothing (for every
candidate file the recomputed checksum equals the one recorded in the
handoff record's files map, so `update_header_block` is never reached) and
leaves the on-disk handoff record exactly as the first run left it. -/
theorem c4_second_run_is_noop (env : Env) (files : List Str) (s0 : St)
    (h1 : (runHook env files s0).err = none) :
    (runHook env files (runHook env files s0).st).err = none ∧
    (runHook env files (runHook env files s0).st).g.rewrites = [] ∧
    (runHook env files (runHook env files s0).st).st.handoff =
      (runHook env files s0).st.handoff := by
  cases hL1 : processLoop files (initRS env s0) with
  | mk e1 rs1 =>
    cases e1 with
    | some e =>
      rw [runHook_error env files s0 e rs1 hL1] at h1
      cases h1
    | none =>
      have hCons := consistent_after_loop files (initRS env s0) rs1 hL1
      cases hm1 : rs1.modified with
      | true =>
        rw [runHook_mod env files s0 rs1 hL1 hm1]
        dsimp only
        have hC2 : ∀ p ∈ files,
            ConsistentAt
              (initRS env ⟨rs1.fs, some rs1.data, rs1.ledger⟩).fs
              (initRS env ⟨rs1.fs, some rs1.data, rs1.ledger⟩).data.files p :=
          fun p hp => hCons p hp
        have hnoop := processLoop_noop files
          (initRS env ⟨rs1.fs, some rs1.data, rs1.ledger⟩) hC2
        rw [runHook_unmod env files ⟨rs1.fs, some rs1.data, rs1.ledger⟩
          (initRS env ⟨rs1.fs, some rs1.data, rs1.ledger⟩) hnoop rfl]
        exact ⟨rfl, rfl, rfl⟩
      | false =>
        have hrs1 : rs1 = initRS env s0 :=
          processLoop_unmod files (initRS env s0) none rs1 hL1 hm1
        rw [runHook_unmod env files s0 rs1 hL1 hm1]
        dsimp only
        have hinit : initRS env ⟨rs1.fs, s0.handoff, rs1.ledger⟩ = rs1 := by
          rw [hrs1]
          rfl
        have hC2 : ∀ p ∈ files,
            ConsistentAt
              (initRS env ⟨rs1.fs, s0.handoff, rs1.ledger⟩).fs
              (initRS env ⟨rs1.fs, s0.handoff, rs1.ledger⟩).data.files p := by
          rw [hinit]
          exact hCons
        have hnoop := processLoop_noop files
          (initRS env ⟨rs1.fs, s0.handoff, rs1.ledger⟩) hC2
        rw [runHook_unmod env files ⟨rs1.fs, s0.handoff, rs1.ledger⟩
          (initRS env ⟨rs1.fs, s0.handoff, rs1.ledger⟩) hnoop rfl]
        exact ⟨rfl, rfl, rfl⟩

/-- Witness for C4: the sample commit rewrites `a.conf` on the first run; the
second run performs zero rewrites and keeps the handoff record. -/
theorem c4_second_run_is_noop_witness :
    (runHook envW filesW (runHook envW filesW s0W).st).err = none ∧
    (runHook envW filesW (runHook envW filesW s0W).st).g.rewrites = [] ∧
    (runHook envW filesW (runHook envW filesW s0W).st).st.handoff =
      (runHook envW filesW s0W).st.handoff :=
  c4_second_run_is_noop envW filesW s0W (by decide)

/-! ## Claim C2: one revision allocation per commit -/

theorem runInv_processLoop_eq (r0 : Nat) (ps : List Str) (rs : RunSt)
    (e : Option Str) (rs1 : RunSt) (h : processLoop ps rs = (e, rs1))
    (inv : RunInv r0 rs) : RunInv r0 rs1 := by
  have h2 := runInv_processLoop r0 ps rs inv
  rw [h] at h2
  exact h2

theorem runHook_ok_ghost (env : Env) (files : List Str) (s : St) (rs : RunSt)
    (h : processLoop files (initRS env s) = (none, rs)) :
    (runHook env files s).g.calls = rs.g.calls ∧
    (runHook env files s).g.revs = rs.g.revs := by
  cases hm : rs.modified with
  | true => rw [runHook_mod env files s rs h hm]; exact ⟨rfl, rfl⟩
  | false => rw [runHook_unmod env files s rs h hm]; exact ⟨rfl, rfl⟩

theorem runHook_ok_handoff (env : Env) (files : List Str) (s : St) (rs : RunSt)
    (h : processLoop files (initRS env s) = (none, rs)) :
    (runHook env files s).st.handoff =
      (if rs.modified then some rs.data else s.handoff) := by
  cases hm : rs.modified with
  | true => rw [runHook_mod env files s rs h hm]; simp
  | false => rw [runHook_unmod env files s rs h hm]; simp

/-- Claim C2: starting a commit from no handoff record, across two
consecutive invocations (the second reading the state the first left behind)
the ledger's increment-and-fetch runs at most once in total, and there is a
single positive revision value that every file rewrite of either invocation
stamps into its header.  The allocation happens only while the record's
revision field is still the 0 sentinel, and its positive result is stored in
the record and reused. -/
theorem c2_one_revision_per_commit (env : Env) (files1 files2 : List Str)
    (s0 : St) (h0 : s0.handoff = none)
    (h1 : (runHook env files1 s0).err = none)
    (h2 : (runHook env files2 (runHook env files1 s0).st).err = none) :
    (runHook env files1 s0).g.calls +
      (runHook env files2 (runHook env files1 s0).st).g.calls ≤ 1 ∧
    ∃ r, 0 < r ∧
      ∀ v ∈ (runHook env files1 s0).g.revs ++
          (runHook env files2 (runHook env files1 s0).st).g.revs, v = r := by
  have hrev0 : (initRS env s0).data.rev = 0 := by
    simp [initRS, loadOrCreate, h0, freshCommitData]
  cases hL1 : processLoop files1 (initRS env s0) with
  | mk e1 rs1 =>
    cases e1 with
    | some e =>
      rw [runHook_error env files1 s0 e rs1 hL1] at h1
      cases h1
    | none =>
      have inv1 := runInv_processLoop_eq (initRS env s0).data.rev files1
        (initRS env s0) none rs1 hL1 (runInv_init env s0)
      rw [hrev0] at inv1
      obtain ⟨hg1c, hg1r⟩ := runHook_ok_ghost env files1 s0 rs1 hL1
      have hhand := runHook_ok_handoff env files1 s0 rs1 hL1
      cases hL2 : processLoop files2
          (initRS env (runHook env files1 s0).st) with
      | mk e2 rs2 =>
        cases e2 with
        | some e =>
          rw [runHook_error env files2 (runHook env files1 s0).st e rs2 hL2] at h2
          cases h2
        | none =>
          have inv2 := runInv_processLoop_eq
            (initRS env (runHook env files1 s0).st).data.rev files2
            (initRS env (runHook env files1 s0).st) none rs2 hL2
            (runInv_init env (runHook env files1 s0).st)
          obtain ⟨hg2c, hg2r⟩ :=
            runHook_ok_ghost env files2 (runHook env files1 s0).st rs2 hL2
          rw [hg1c, hg1r, hg2c, hg2r]
          cases hm1 : rs1.modified with
          | true =>
            rw [hm1] at hhand
            simp only [if_true] at hhand
            have hr2eq : (initRS env (runHook env files1 s0).st).data.rev =
                rs1.data.rev := by
              simp [initRS, hhand, loadOrCreate]
            by_cases hrev1 : rs1.data.rev = 0
            · obtain ⟨hc0, hr0⟩ := inv1.rev_zero hrev1
              rw [hc0, hr0]
              refine ⟨by simpa using inv2.calls_le,
                max 1 rs2.data.rev, by omega, ?_⟩
              intro v hv
              simp only [List.nil_append] at hv
              obtain ⟨hveq, hvpos⟩ := inv2.revs_eq v hv
              omega
            · have hst := inv2.stable (by
                rw [hr2eq]
                exact Nat.pos_of_ne_zero hrev1)
              constructor
              · rw [hst.2]
                have := inv1.calls_le
                omega
              · refine ⟨rs1.data.rev, Nat.pos_of_ne_zero hrev1, ?_⟩
                intro v hv
                rcases List.mem_append.mp hv with h | h
                · exact (inv1.revs_eq v h).1
                · have h4 := (inv2.revs_eq v h).1
                  rw [hst.1, hr2eq] at h4
                  exact h4
          | false =>
            have hrs1 : rs1 = initRS env s0 :=
              processLoop_unmod files1 (initRS env s0) none rs1 hL1 hm1
            have hc0 : rs1.g.calls = 0 := by rw [hrs1]; rfl
            have hr0 : rs1.g.revs = [] := by rw [hrs1]; rfl
            rw [hc0, hr0]
            refine ⟨by simpa using inv2.calls_le,
              max 1 rs2.data.rev, by omega, ?_⟩
            intro v hv
            simp only [List.nil_append] at hv
            obtain ⟨hveq, hvpos⟩ := inv2.revs_eq v hv
            omega

/-- Witness for C2: the sample commit allocates revision 1 exactly once
across two invocations and stamps it into the single rewritten file. -/
theorem c2_one_revision_per_commit_witness :
    (runHook envW filesW s0W).g.calls +
      (runHook envW filesW (runHook envW filesW s0W).st).g.calls ≤ 1 ∧
    ∃ r, 0 < r ∧
      ∀ v ∈ (runHook envW filesW s0W).g.revs ++
          (runHook envW filesW (runHook envW filesW s0W).st).g.revs, v = r :=
  c2_one_revision_per_commit envW filesW filesW s0W (by decide) (by decide)
    (by decide)

end GKS
